import Mathlib

/-!
Verification development for the skin-lesion preprocessing pipeline
(`preprocessing.py`): the dataset split of `build_training_set`, the
geometric part of `preprocessing_unet`, and `make_gaussian`.

Modelling conventions:
* Sample ids are `String`s, as in the source.
* The seeded permutation `np.random.RandomState(seed=seed).permutation(n)`
  is an opaque pseudo-random-generator output: it enters the model as an
  explicit parameter `perm : List Nat`, a function of `(seed, n)` only.
* The draws of the process-global generator `np.random.randint(m)`
  (line 250 of the source) enter as a stream `rand : Nat -> Nat` together
  with a counter; a draw with bound `m > 0` yields `rand ctr % m`, and a
  draw with bound `m = 0` raises (numpy `ValueError: low >= high`).
* Python `int(train_ratio * n)` on a nonnegative product is the floor; the
  float multiplication is idealized as exact rational arithmetic.
-/

namespace SkinLesion

/-- State of the mutable `partition` dictionary of `build_training_set`
together with the number of global-generator draws consumed so far. -/
structure SplitSt where
  train : List String
  test : List String
  ctr : Nat

/-- Lines 250-252 of `build_training_set`:
`rd_idx = np.random.randint(len(partition['test']))`;
`partition['train'][k] = partition['test'][rd_idx]`;
`partition['test'][rd_idx] = id_`.  Under the guard of line 249 the swapped
id `id_` equals `train[k]`, so the write of line 252 stores `train[k]`.
Only called with a nonempty test list. -/
def swapStep (rand : Nat → Nat) (s : SplitSt) (k : Nat) : SplitSt :=
  let rd := rand s.ctr % s.test.length
  { train := s.train.set k (s.test.getD rd "")
    test := s.test.set rd (s.train.getD k "")
    ctr := s.ctr + 1 }

/-- Lines 248-252: the inner `for id_ in specific_ids` loop at a fixed
train index `k`.  Each id of `specific_ids` is compared against the
current `train[k]` (which earlier swaps at the same `k` may have changed);
on a match, `np.random.randint(len(test))` raises when `test` is empty,
otherwise the swap of `swapStep` happens. -/
def innerLoop (rand : Nat → Nat) (k : Nat) : List String → SplitSt → Except String SplitSt
  | [], s => .ok s
  | id_ :: rest, s =>
    if s.train.getD k "" = id_ then
      if s.test.length = 0 then .error "ValueError: low >= high"
      else innerLoop rand k rest (swapStep rand s k)
    else innerLoop rand k rest s

/-- Line 247: the outer `for k in range(len(partition['train']))` loop,
with `fuel` the number of remaining indices. -/
def outerLoop (rand : Nat → Nat) (specific : List String) :
    Nat → Nat → SplitSt → Except String SplitSt
  | _, 0, s => .ok s
  | k, fuel + 1, s =>
    match innerLoop rand k specific s with
    | .error e => .error e
    | .ok s1 => outerLoop rand specific (k + 1) fuel s1

/-- Lines 235-252 of `build_training_set`: the seeded permutation is
applied to the id list, the first `int(train_ratio * n)` permuted ids form
`train` and the rest form `test` (lines 238-243), then the
`specific_ids` enforcement pass runs (lines 246-252).  `perm` is the
output of `np.random.RandomState(seed=seed).permutation(n)` and `rand`
the stream of process-global `np.random` draws. -/
def build_training_set_split (ids : List String) (perm : List Nat) (trainRatio : ℚ)
    (specific : List String) (rand : Nat → Nat) : Except String (List String × List String) :=
  let n := ids.length
  let permuted := perm.map fun i => ids.getD i ""
  let cut := (⌊trainRatio * n⌋).toNat
  let s0 : SplitSt := { train := permuted.take cut, test := permuted.drop cut, ctr := 0 }
  (outerLoop rand specific 0 s0.train.length s0).map fun s => (s.train, s.test)

/-!
### Image model for `preprocessing_unet`

An image is a triple of dimensions together with a total pixel function
(row, column, channel ↦ value); values are exact rationals, idealizing the
float arithmetic of the source.  The OpenCV primitives that the spec
treats as black boxes (resize interpolation, the two color conversions and
histogram equalization) enter as an explicit bundle `CvPrims` of opaque
functions; the geometry (aspect-preserving resize target, padding
arithmetic, channel concatenation) is modelled concretely from the source.
The gaussian channel of line 147 is the float array produced by
`make_gaussian(desired_size)`; its (rational float) values enter as the
opaque field `gauss`, while the exact real-number semantics of
`make_gaussian` itself is modelled separately below.
-/

structure Img where
  rows : Nat
  cols : Nat
  chans : Nat
  px : Nat → Nat → Nat → ℚ

/-- The black-box OpenCV/numpy numeric primitives used by
`preprocessing_unet`. -/
structure CvPrims where
  resize : Img → Nat → Nat → Img
  rgb2hls : Img → Img
  hls2rgb : Img → Img
  equalize : (Nat → Nat → ℚ) → Nat → Nat → ℚ
  gauss : Nat → Nat → ℚ

/-- Lines 103-117: target dimensions (rows, cols) of the aspect-preserving
resize.  `percent = largest_dimension / float(rows)` and
`csize = int(float(columns) * float(percent))`; the float arithmetic is
idealized as exact rational arithmetic, and `int()` of the nonnegative
product is the floor. -/
def resize_dims (rows cols largest : Nat) : Nat × Nat :=
  if cols ≤ rows then
    let percent : ℚ := (largest : ℚ) / (rows : ℚ)
    (largest, ⌊(cols : ℚ) * percent⌋₊)
  else
    let percent : ℚ := (largest : ℚ) / (cols : ℚ)
    (⌊(rows : ℚ) * percent⌋₊, largest)

/-- Lines 125-128: `delta = desired_size - current`, `first = delta // 2`
(Python floor division, hence `Int.fdiv`), `second = delta - first`. -/
def pad_amounts (desired cur : Nat) : Int × Int :=
  let d : Int := (desired : Int) - (cur : Int)
  (Int.fdiv d 2, d - Int.fdiv d 2)

/-- Line 123: `original_intensity = im_hsi[:, :, 1]`, the lightness plane
of the HLS image, kept as a single-channel image
(line 133 `np.expand_dims(., axis=2)`). -/
def lightness (im : Img) : Img :=
  { rows := im.rows, cols := im.cols, chans := 1, px := fun r c _ => im.px r c 1 }

/-- Line 136: `im_hsi[:, :, 1] = cv.equalizeHist(im_hsi[:, :, 1])` —
channel 1 is replaced by the equalized plane, the other channels are
unchanged. -/
def equalizeL (P : CvPrims) (im : Img) : Img :=
  { rows := im.rows, cols := im.cols, chans := im.chans
    px := fun r c ch =>
      if ch = 1 then P.equalize (fun r c => im.px r c 1) r c else im.px r c ch }

/-- Division of every pixel by a scalar (`new_im / 255`,
`original_intensity / 255` on line 151). -/
def divImg (im : Img) (v : ℚ) : Img :=
  { rows := im.rows, cols := im.cols, chans := im.chans
    px := fun r c ch => im.px r c ch / v }

/-- The pixel grid produced by `cv.copyMakeBorder` with
`cv.BORDER_CONSTANT`: the source shifted by (top, left) inside a
`tRows × tCols` frame filled with the constant `v`. -/
def borderExtend (p : Img) (top left tRows tCols : Nat) (v : ℚ) : Img :=
  { rows := tRows, cols := tCols, chans := p.chans
    px := fun r c ch =>
      if r < top ∨ top + p.rows ≤ r ∨ c < left ∨ left + p.cols ≤ c then v
      else p.px (r - top) (c - left) ch }

/-- Lines 131-132 / 140 / 144: `cv.copyMakeBorder(src, top, bottom, left,
right, cv.BORDER_CONSTANT, value=v)`.  OpenCV rejects negative border
sizes, so negative deltas raise rather than crop. -/
def copyMakeBorder (p : Img) (top bottom left right : Int) (v : ℚ) :
    Except String Img :=
  if 0 ≤ top ∧ 0 ≤ bottom ∧ 0 ≤ left ∧ 0 ≤ right then
    .ok (borderExtend p top.toNat left.toNat (p.rows + top.toNat + bottom.toNat)
      (p.cols + left.toNat + right.toNat) v)
  else .error "copyMakeBorder: negative border"

/-- Line 151: `np.concatenate((a, b), axis=2)` — channels of `a` first,
then channels of `b`; numpy rejects mismatched spatial shapes. -/
def concatCh (a b : Img) : Except String Img :=
  if a.rows = b.rows ∧ a.cols = b.cols then
    .ok { rows := a.rows, cols := a.cols, chans := a.chans + b.chans
          px := fun r c ch =>
            if ch < a.chans then a.px r c ch else b.px r c (ch - a.chans) }
  else .error "concatenate: shape mismatch"

/-- Lines 147-148: the cached gaussian channel, `make_gaussian(desired_size)`
expanded to one channel; its float values are the opaque `P.gauss`. -/
def gaussImg (P : CvPrims) (desired : Nat) : Img :=
  { rows := desired, cols := desired, chans := 1, px := fun r c _ => P.gauss r c }

/-- Lines 98-156 of `preprocessing_unet`, after the files have been read:
aspect-preserving resize of image and mask (lines 103-117, raising when a
target dimension truncates to zero, as `cv.resize` does on an empty size),
RGB→HLS conversion (line 120), extraction of the pre-equalization
lightness plane (line 123), padding geometry (lines 125-128), padding of
the intensity plane with constant 255 (line 131), in-place histogram
equalization of the lightness plane and conversion back to RGB
(lines 136-137), padding of the RGB image with constant 255 (line 140),
padding of the mask with constant 0 (line 144), and concatenation
`[R, G, B, intensity, gaussian]` of the normalized channels (line 151).
The pre-equalization plane is padded (copied) on line 131 before the
in-place update of line 136, so the functional translation reads channel 1
of `im_hsi` before `equalizeL` is applied. -/
def preprocessing_unet (P : CvPrims) (im : Img) (mask : Option Img)
    (largest desired : Nat) : Except String (Img × Option Img) :=
  let rd := resize_dims im.rows im.cols largest
  if rd.1 = 0 ∨ rd.2 = 0 then .error "cv.resize: empty size" else
  let new_im := P.resize im rd.1 rd.2
  let new_mask := mask.map fun m => P.resize m rd.1 rd.2
  let im_hsi := P.rgb2hls new_im
  let tb := pad_amounts desired new_im.rows
  let lr := pad_amounts desired new_im.cols
  (copyMakeBorder (lightness im_hsi) tb.1 tb.2 lr.1 lr.2 255).bind fun oi =>
  (copyMakeBorder (P.hls2rgb (equalizeL P im_hsi)) tb.1 tb.2 lr.1 lr.2 255).bind
    fun padded_im =>
  (match new_mask with
    | none => Except.ok none
    | some m => (copyMakeBorder m tb.1 tb.2 lr.1 lr.2 0).map some).bind fun m2 =>
  (concatCh (divImg padded_im 255) (divImg oi 255)).bind fun t =>
  (concatCh t (gaussImg P desired)).bind fun im5 =>
  .ok (im5, m2)

/-- Contract of the opaque resize: the result has the requested target
dimensions and the channel count of its input (`cv.resize` semantics). -/
def ResizeOk (P : CvPrims) : Prop :=
  ∀ im r c, (P.resize im r c).rows = r ∧ (P.resize im r c).cols = c ∧
    (P.resize im r c).chans = im.chans

/-- Contract of the opaque color conversions: `cv.cvtColor` preserves the
spatial dimensions and the (three-)channel count. -/
def ColorOk (P : CvPrims) : Prop :=
  ∀ im, ((P.rgb2hls im).rows = im.rows ∧ (P.rgb2hls im).cols = im.cols ∧
      (P.rgb2hls im).chans = im.chans) ∧
    ((P.hls2rgb im).rows = im.rows ∧ (P.hls2rgb im).cols = im.cols ∧
      (P.hls2rgb im).chans = im.chans)

/-- Concrete primitives satisfying the contracts, for evaluating the model
on closed inputs. -/
def idPrims : CvPrims :=
  { resize := fun im r c => { rows := r, cols := c, chans := im.chans, px := im.px }
    rgb2hls := fun im => im
    hls2rgb := fun im => im
    equalize := fun f => f
    gauss := fun _ _ => 0 }

/-- A constant image of the given dimensions. -/
def constImg (r c ch : Nat) (v : ℚ) : Img :=
  { rows := r, cols := c, chans := ch, px := fun _ _ _ => v }

/-!
### `make_gaussian` (lines 32-41)

Exact real-number semantics of the cell values:
`np.exp(-4 * np.log(2) * ((x - x0) ** 2 + (y - y0) ** 2) / fwhm ** 2)`
with default center `x0 = y0 = size // 2`.  The numpy broadcasting makes
the row index of the produced array the `y` coordinate and the column
index the `x` coordinate.
-/

noncomputable def make_gaussian (size : Nat) (fwhm : ℚ) (center : Option (ℚ × ℚ))
    (x y : Nat) : ℝ :=
  let x0 : ℚ := match center with | none => ((size / 2 : Nat) : ℚ) | some c => c.1
  let y0 : ℚ := match center with | none => ((size / 2 : Nat) : ℚ) | some c => c.2
  Real.exp (-4 * Real.log 2 * (((x : ℝ) - (x0 : ℝ)) ^ 2 + ((y : ℝ) - (y0 : ℝ)) ^ 2)
    / (fwhm : ℝ) ^ 2)

noncomputable def make_gaussian_matrix (size : Nat) (fwhm : ℚ) : List (List ℝ) :=
  (List.range size).map fun y => (List.range size).map fun x =>
    make_gaussian size fwhm none x y

/-- Replacing position `k` (in range) by `a` trades one occurrence of the
old entry `l.getD k ""` for one occurrence of `a`, counted elementwise. -/
theorem count_set_aux (l : List String) (k : Nat) (hk : k < l.length) (a x : String) :
    (l.set k a).count x + (if l.getD k "" = x then 1 else 0)
      = l.count x + (if a = x then 1 else 0) := by
  induction l generalizing k with
  | nil => simp at hk
  | cons b t ih =>
    cases k with
    | zero =>
      simp only [List.set_cons_zero, List.getD_cons_zero, List.count_cons, beq_iff_eq]
      split_ifs <;> omega
    | succ k =>
      have hk' : k < t.length := by simpa using hk
      have h := ih k hk'
      simp only [List.set_cons_succ, List.getD_cons_succ, List.count_cons, beq_iff_eq]
      split_ifs at h ⊢ <;> omega

/-- Exchanging `l₁[k]` with `l₂[rd]` across the two lists permutes the
concatenation: the outcome of one `swapStep` on `train ++ test`. -/
theorem set_swap_append_perm (l₁ l₂ : List String) (k rd : Nat)
    (hk : k < l₁.length) (hrd : rd < l₂.length) :
    (l₁.set k (l₂.getD rd "") ++ l₂.set rd (l₁.getD k "")).Perm (l₁ ++ l₂) := by
  rw [List.perm_iff_count]
  intro x
  have A := count_set_aux l₁ k hk (l₂.getD rd "") x
  have B := count_set_aux l₂ rd hrd (l₁.getD k "") x
  simp only [List.count_append]
  split_ifs at A B <;> omega

/-- A successful inner enforcement loop preserves the two lengths and
permutes `train ++ test`. -/
theorem innerLoop_ok (rand : Nat → Nat) (k : Nat) (spec : List String) (s s' : SplitSt)
    (hk : k < s.train.length) (h : innerLoop rand k spec s = .ok s') :
    s'.train.length = s.train.length ∧ s'.test.length = s.test.length ∧
      (s'.train ++ s'.test).Perm (s.train ++ s.test) := by
  induction spec generalizing s with
  | nil =>
    rw [innerLoop] at h
    cases h
    exact ⟨rfl, rfl, List.Perm.refl _⟩
  | cons id_ rest ih =>
    rw [innerLoop] at h
    by_cases hguard : s.train.getD k "" = id_
    · rw [if_pos hguard] at h
      by_cases hts : s.test.length = 0
      · rw [if_pos hts] at h
        cases h
      · rw [if_neg hts] at h
        have hk1 : k < (swapStep rand s k).train.length := by
          simpa [swapStep] using hk
        have hrd : rand s.ctr % s.test.length < s.test.length :=
          Nat.mod_lt _ (Nat.pos_of_ne_zero hts)
        have hrec := ih (swapStep rand s k) hk1 h
        refine ⟨?_, ?_, ?_⟩
        · rw [hrec.1]; simp [swapStep]
        · rw [hrec.2.1]; simp [swapStep]
        · exact hrec.2.2.trans (set_swap_append_perm s.train s.test k _ hk hrd)
    · rw [if_neg hguard] at h
      exact ih s hk h

/-- A successful outer enforcement loop preserves the two lengths and
permutes `train ++ test`. -/
theorem outerLoop_ok (rand : Nat → Nat) (specific : List String) :
    ∀ (fuel k : Nat) (s s' : SplitSt), k + fuel ≤ s.train.length →
      outerLoop rand specific k fuel s = .ok s' →
      s'.train.length = s.train.length ∧ s'.test.length = s.test.length ∧
        (s'.train ++ s'.test).Perm (s.train ++ s.test)
  | 0, k, s, s', _, h => by
    rw [outerLoop] at h
    cases h
    exact ⟨rfl, rfl, List.Perm.refl _⟩
  | fuel + 1, k, s, s', hle, h => by
    rw [outerLoop] at h
    cases hin : innerLoop rand k specific s with
    | error e => rw [hin] at h; cases h
    | ok s1 =>
      rw [hin] at h
      have h1 := innerLoop_ok rand k specific s s1 (by omega) hin
      have h2 := outerLoop_ok rand specific fuel (k + 1) s1 s' (by omega) h
      exact ⟨h2.1.trans h1.1, h2.2.1.trans h1.2.1, h2.2.2.trans h1.2.2⟩

/-- Indexing a list by `range` of its length reproduces the list. -/
theorem map_getD_range (l : List String) :
    (List.range l.length).map (fun i => l.getD i "") = l := by
  induction l with
  | nil => simp
  | cons a t ih =>
    rw [List.length_cons, List.range_succ_eq_map]
    simp only [List.map_cons, List.getD_cons_zero, List.map_map]
    congr 1

/-- Applying a permutation of `range n` as an index map enumerates the id
list in permuted order. -/
theorem permuted_perm (ids : List String) (perm : List Nat)
    (hperm : perm.Perm (List.range ids.length)) :
    (perm.map fun i => ids.getD i "").Perm ids := by
  have h := hperm.map (fun i => ids.getD i "")
  rwa [map_getD_range] at h

/-- When no id of `specific_ids` matches `train[k]`, the inner loop makes
no swap and no draw: the state passes through unchanged. -/
theorem innerLoop_no_match (rand : Nat → Nat) (k : Nat) (spec : List String) (s : SplitSt)
    (hm : ∀ id_ ∈ spec, s.train.getD k "" ≠ id_) :
    innerLoop rand k spec s = .ok s := by
  induction spec with
  | nil => rw [innerLoop]
  | cons a rest ih =>
    rw [innerLoop, if_neg (hm a (by simp))]
    exact ih fun id_ hid => hm id_ (by simp [hid])

/-- When some id of `specific_ids` matches `train[k]` while the test list
is empty, the inner loop raises: `np.random.randint(0)` is a
`ValueError`. -/
theorem innerLoop_empty_test (rand : Nat → Nat) (k : Nat) (spec : List String) (s : SplitSt)
    (hts : s.test = []) (hm : ∃ id_ ∈ spec, s.train.getD k "" = id_) :
    innerLoop rand k spec s = .error "ValueError: low >= high" := by
  induction spec with
  | nil => simp at hm
  | cons a rest ih =>
    rw [innerLoop]
    by_cases hg : s.train.getD k "" = a
    · rw [if_pos hg, if_pos (by simp [hts])]
    · rw [if_neg hg]
      refine ih ?_
      rcases hm with ⟨id_, hid, he⟩
      rcases List.mem_cons.1 hid with h | h
      · exact absurd (h ▸ he) hg
      · exact ⟨id_, h, he⟩

/-- With an empty test list, as soon as the outer loop reaches an index
whose train entry lies in `specific_ids`, the run raises. -/
theorem outerLoop_empty_test (rand : Nat → Nat) (specific : List String) :
    ∀ (fuel k : Nat) (s : SplitSt), s.test = [] →
      (∃ j, k ≤ j ∧ j < k + fuel ∧ ∃ id_ ∈ specific, s.train.getD j "" = id_) →
      outerLoop rand specific k fuel s = .error "ValueError: low >= high"
  | 0, k, s, _, hex => by
    rcases hex with ⟨j, h1, h2, _⟩
    omega
  | fuel + 1, k, s, hts, hex => by
    rw [outerLoop]
    by_cases hcur : ∃ id_ ∈ specific, s.train.getD k "" = id_
    · rw [innerLoop_empty_test rand k specific s hts hcur]
    · rw [innerLoop_no_match rand k specific s (by push_neg at hcur; exact hcur)]
      rcases hex with ⟨j, h1, h2, hm⟩
      have hkj : k ≠ j := fun he => hcur (he ▸ hm)
      exact outerLoop_empty_test rand specific fuel (k + 1) s hts ⟨j, by omega, by omega, hm⟩

/-- A successful run of the whole enforcement phase, from an arbitrary
initial partition state, permutes `train ++ test`; lengths are preserved
and distinct inputs stay disjoint. -/
theorem split_result_invariant (specific : List String) (rand : Nat → Nat) (s0 : SplitSt)
    (tr te : List String)
    (hok : Except.map (fun s : SplitSt => (s.train, s.test))
        (outerLoop rand specific 0 s0.train.length s0) = .ok (tr, te)) :
    tr.length + te.length = s0.train.length + s0.test.length ∧
      (tr ++ te).Perm (s0.train ++ s0.test) ∧
      ((s0.train ++ s0.test).Nodup → ∀ x ∈ tr, x ∉ te) := by
  cases ho : outerLoop rand specific 0 s0.train.length s0 with
  | error e => rw [ho] at hok; simp [Except.map] at hok
  | ok s' =>
    rw [ho] at hok
    simp only [Except.map, Except.ok.injEq, Prod.mk.injEq] at hok
    obtain ⟨htr, hte⟩ := hok
    have hloop := outerLoop_ok rand specific s0.train.length 0 s0 s' (by omega) ho
    have hp : (tr ++ te).Perm (s0.train ++ s0.test) := by
      rw [← htr, ← hte]; exact hloop.2.2
    refine ⟨by simpa using hp.length_eq, hp, fun hnd x hx => ?_⟩
    have hndt : (tr ++ te).Nodup := hp.symm.nodup hnd
    exact (List.nodup_append.1 hndt).2.2 hx

/-- C8: for every id sequence, permutation output, train ratio,
`specific_ids` list and global-generator stream, a successfully produced
partition satisfies `|train| + |test| = n`, and when the ids are distinct
the two sequences are disjoint; the enforcement swaps never change either
length. -/
theorem split_partition_invariant (ids : List String) (perm : List Nat) (trainRatio : ℚ)
    (specific : List String) (rand : Nat → Nat) (tr te : List String)
    (hperm : perm.Perm (List.range ids.length)) (hnd : ids.Nodup)
    (hok : build_training_set_split ids perm trainRatio specific rand = .ok (tr, te)) :
    tr.length + te.length = ids.length ∧ ∀ x ∈ tr, x ∉ te := by
  have h := split_result_invariant specific rand
    { train := (perm.map fun i => ids.getD i "").take (⌊trainRatio * (ids.length : ℚ)⌋).toNat
      test := (perm.map fun i => ids.getD i "").drop (⌊trainRatio * (ids.length : ℚ)⌋).toNat
      ctr := 0 } tr te hok
  have hpermuted : (perm.map fun i => ids.getD i "").Perm ids := permuted_perm ids perm hperm
  have hcat : ((perm.map fun i => ids.getD i "").take (⌊trainRatio * (ids.length : ℚ)⌋).toNat
      ++ (perm.map fun i => ids.getD i "").drop (⌊trainRatio * (ids.length : ℚ)⌋).toNat)
      = perm.map fun i => ids.getD i "" := List.take_append_drop _ _
  constructor
  · have hlen : tr.length + te.length
        = ((perm.map fun i => ids.getD i "").take
            (⌊trainRatio * (ids.length : ℚ)⌋).toNat).length
          + ((perm.map fun i => ids.getD i "").drop
            (⌊trainRatio * (ids.length : ℚ)⌋).toNat).length := h.1
    have hperml : perm.length = ids.length := by simpa using hperm.length_eq
    simp only [List.length_take, List.length_drop, List.length_map] at hlen
    omega
  · refine h.2.2 ?_
    rw [hcat]
    exact hpermuted.symm.nodup hnd

/-- C8 witness: `ids = [a, b]`, the seeded permutation `[1, 0]`,
`trainRatio = 1/2`, no enforced ids; the produced partition is
`train = [b]`, `test = [a]` and satisfies the invariant. -/
theorem split_partition_invariant_witness :
    (["b"] : List String).length + (["a"] : List String).length
        = (["a", "b"] : List String).length ∧
      ∀ x ∈ (["b"] : List String), x ∉ (["a"] : List String) := by
  have hok : build_training_set_split ["a", "b"] [1, 0] (1/2) [] (fun _ => 0)
      = .ok (["b"], ["a"]) := by
    simp [build_training_set_split]
    rfl
  exact split_partition_invariant ["a", "b"] [1, 0] (1/2) [] (fun _ => 0) ["b"] ["a"]
    (by decide) (by decide) hok

/-- C10: when the test side of the split is empty (the cut of
`int(trainRatio * n)` covers the whole permutation) and some id of
`specific_ids` occurs among the permuted ids (hence in `train`), the
enforcement pass raises the `np.random.randint(0)` error instead of
returning a partition. -/
theorem empty_test_enforcement_raises (ids : List String) (perm : List Nat) (trainRatio : ℚ)
    (specific : List String) (rand : Nat → Nat)
    (hcut : perm.length ≤ (⌊trainRatio * (ids.length : ℚ)⌋).toNat)
    (hx : ∃ id_ ∈ specific, id_ ∈ perm.map fun i => ids.getD i "") :
    ∃ msg, build_training_set_split ids perm trainRatio specific rand = .error msg := by
  refine ⟨"ValueError: low >= high", ?_⟩
  have hlen : (perm.map fun i => ids.getD i "").length = perm.length := by simp
  have htake : (perm.map fun i => ids.getD i "").take
        (⌊trainRatio * (ids.length : ℚ)⌋).toNat = perm.map fun i => ids.getD i "" :=
    List.take_of_length_le (by omega)
  have hdrop : (perm.map fun i => ids.getD i "").drop
        (⌊trainRatio * (ids.length : ℚ)⌋).toNat = [] :=
    List.drop_eq_nil_of_le (by omega)
  rcases hx with ⟨id_, hspec, hmem⟩
  rcases List.mem_iff_getElem.1 hmem with ⟨j, hj, hgj⟩
  have houter : outerLoop rand specific 0
      ((perm.map fun i => ids.getD i "").take (⌊trainRatio * (ids.length : ℚ)⌋).toNat).length
      { train := (perm.map fun i => ids.getD i "").take
          (⌊trainRatio * (ids.length : ℚ)⌋).toNat
        test := (perm.map fun i => ids.getD i "").drop
          (⌊trainRatio * (ids.length : ℚ)⌋).toNat
        ctr := 0 }
      = .error "ValueError: low >= high" := by
    refine outerLoop_empty_test rand specific _ 0 _ (by exact hdrop) ?_
    refine ⟨j, by omega, by rw [htake]; simpa using hj, id_, hspec, ?_⟩
    simp only [htake]
    rw [List.getD_eq_getElem _ _ (by simpa using hj)]
    exact hgj
  show Except.map (fun s : SplitSt => (s.train, s.test))
      (outerLoop rand specific 0
        ((perm.map fun i => ids.getD i "").take
          (⌊trainRatio * (ids.length : ℚ)⌋).toNat).length
        { train := (perm.map fun i => ids.getD i "").take
            (⌊trainRatio * (ids.length : ℚ)⌋).toNat
          test := (perm.map fun i => ids.getD i "").drop
            (⌊trainRatio * (ids.length : ℚ)⌋).toNat
          ctr := 0 })
      = .error "ValueError: low >= high"
  rw [houter]
  rfl

/-- C10 witness: one id, `trainRatio = 1`, the id is in `specific_ids`:
the whole id set lands in `train`, `test` is empty and the run raises. -/
theorem empty_test_enforcement_raises_witness :
    ∃ msg, build_training_set_split ["A"] [0] 1 ["A"] (fun _ => 0) = .error msg := by
  refine empty_test_enforcement_raises ["A"] [0] 1 ["A"] (fun _ => 0) (by norm_num) ?_
  exact ⟨"A", by simp, by simp⟩

/-- C1 (code bug): with `train = [A, B]`, `test = [X]` and
`specific_ids = [A, B]`, the enforcement pass first swaps `A` into the
one-position test list, then the later swap for `B` overwrites that
position and moves `A` back into `train`: the run returns
`train = [X, A]`, `test = [B]`, so `A ∈ specific_ids ∩ ids` ends in
`train`, contradicting the claim (and the docstring of `specific_ids`).
The draw bound is `len(test) = 1`, so the outcome is the same for every
global-generator stream. -/
theorem specific_id_displaced_back_to_train (rand : Nat → Nat) :
    build_training_set_split ["A", "B", "X"] [0, 1, 2] (7/10) ["A", "B"] rand
      = .ok (["X", "A"], ["B"]) ∧ "A" ∈ (["X", "A"] : List String) := by
  refine ⟨?_, by simp⟩
  simp [build_training_set_split]
  norm_num
  simp [outerLoop, innerLoop, swapStep, Nat.mod_one]
  rfl

/-- C2 (code bug): the swap index of the enforcement pass comes from the
process-global generator (`np.random.randint`), not from the
seed-derived `RandomState`: two runs with identical ids, seeded
permutation, train ratio and `specific_ids` but different global-generator
states produce different partitions. -/
theorem swap_index_depends_on_global_rng :
    build_training_set_split ["A", "B", "C"] [0, 1, 2] (2/5) ["A"] (fun _ => 0)
        = .ok (["B"], ["A", "C"]) ∧
      build_training_set_split ["A", "B", "C"] [0, 1, 2] (2/5) ["A"] (fun _ => 1)
        = .ok (["C"], ["B", "A"]) ∧
      ((["B"], ["A", "C"]) : List String × List String) ≠ (["C"], ["B", "A"]) := by
  refine ⟨?_, ?_, by decide⟩
  · simp [build_training_set_split]
    norm_num
    rfl
  · simp [build_training_set_split]
    norm_num
    rfl

/-! ### Support lemmas for the image model -/

theorem copyMakeBorder_ok (p : Img) (top bottom left right : Int) (v : ℚ)
    (h1 : 0 ≤ top) (h2 : 0 ≤ bottom) (h3 : 0 ≤ left) (h4 : 0 ≤ right) :
    copyMakeBorder p top bottom left right v
      = .ok (borderExtend p top.toNat left.toNat
          (p.rows + top.toNat + bottom.toNat) (p.cols + left.toNat + right.toNat) v) := by
  unfold copyMakeBorder
  rw [if_pos ⟨h1, h2, h3, h4⟩]

theorem copyMakeBorder_natCast (p : Img) (t b l r : Nat) (v : ℚ) :
    copyMakeBorder p (t : Int) (b : Int) (l : Int) (r : Int) v
      = .ok (borderExtend p t l (p.rows + t + b) (p.cols + l + r) v) := by
  rw [copyMakeBorder_ok p _ _ _ _ v (by omega) (by omega) (by omega) (by omega)]
  simp

theorem copyMakeBorder_neg_err (p : Img) (top bottom left right : Int) (v : ℚ)
    (h : top < 0 ∨ bottom < 0 ∨ left < 0 ∨ right < 0) :
    copyMakeBorder p top bottom left right v
      = .error "copyMakeBorder: negative border" := by
  unfold copyMakeBorder
  rw [if_neg (by omega)]

theorem concatCh_ok (a b : Img) (h1 : a.rows = b.rows) (h2 : a.cols = b.cols) :
    concatCh a b = .ok
      { rows := a.rows, cols := a.cols, chans := a.chans + b.chans
        px := fun r c ch =>
          if ch < a.chans then a.px r c ch else b.px r c (ch - a.chans) } := by
  unfold concatCh
  rw [if_pos ⟨h1, h2⟩]

theorem pad_amounts_eq (desired cur : Nat) (h : cur ≤ desired) :
    pad_amounts desired cur
      = ((((desired - cur) / 2 : Nat) : Int),
          (((desired - cur) - (desired - cur) / 2 : Nat) : Int)) := by
  simp only [pad_amounts]
  have hd : (desired : Int) - (cur : Int) = ((desired - cur : Nat) : Int) := by omega
  have h2 : (2 : Int) = ((2 : Nat) : Int) := rfl
  rw [hd, h2, ← Int.ofNat_fdiv]
  simp only [Prod.mk.injEq]
  exact ⟨trivial, by omega⟩

theorem resize_dims_le (rows cols largest : Nat) (hr : 0 < rows) (hc : 0 < cols) :
    (resize_dims rows cols largest).1 ≤ largest ∧
      (resize_dims rows cols largest).2 ≤ largest := by
  simp only [resize_dims]
  split
  · rename_i hcr
    refine ⟨le_rfl, ?_⟩
    have hrq : (0 : ℚ) < (rows : ℚ) := by exact_mod_cast hr
    have hcc : (cols : ℚ) ≤ (rows : ℚ) := by exact_mod_cast hcr
    have hle : (cols : ℚ) * ((largest : ℚ) / (rows : ℚ)) ≤ (largest : ℚ) := by
      rw [← mul_div_assoc, div_le_iff₀ hrq]
      calc (cols : ℚ) * (largest : ℚ) ≤ (rows : ℚ) * (largest : ℚ) :=
            mul_le_mul_of_nonneg_right hcc (by positivity)
        _ = (largest : ℚ) * (rows : ℚ) := mul_comm _ _
    calc ⌊(cols : ℚ) * ((largest : ℚ) / (rows : ℚ))⌋₊
        ≤ ⌊(largest : ℚ)⌋₊ := Nat.floor_le_floor hle
      _ = largest := Nat.floor_natCast _
  · rename_i hcr
    refine ⟨?_, le_rfl⟩
    have hcq : (0 : ℚ) < (cols : ℚ) := by exact_mod_cast hc
    have hrc : (rows : ℚ) ≤ (cols : ℚ) := by exact_mod_cast (by omega : rows ≤ cols)
    have hle : (rows : ℚ) * ((largest : ℚ) / (cols : ℚ)) ≤ (largest : ℚ) := by
      rw [← mul_div_assoc, div_le_iff₀ hcq]
      calc (rows : ℚ) * (largest : ℚ) ≤ (cols : ℚ) * (largest : ℚ) :=
            mul_le_mul_of_nonneg_right hrc (by positivity)
        _ = (largest : ℚ) * (cols : ℚ) := mul_comm _ _
    calc ⌊(rows : ℚ) * ((largest : ℚ) / (cols : ℚ))⌋₊
        ≤ ⌊(largest : ℚ)⌋₊ := Nat.floor_le_floor hle
      _ = largest := Nat.floor_natCast _

theorem resize_dims_has_largest (rows cols largest : Nat) :
    (resize_dims rows cols largest).1 = largest ∨
      (resize_dims rows cols largest).2 = largest := by
  simp only [resize_dims]
  split
  · exact Or.inl rfl
  · exact Or.inr rfl

theorem borderExtend_rows (p : Img) (t l tR tC : Nat) (v : ℚ) :
    (borderExtend p t l tR tC v).rows = tR := rfl

theorem borderExtend_cols (p : Img) (t l tR tC : Nat) (v : ℚ) :
    (borderExtend p t l tR tC v).cols = tC := rfl

theorem borderExtend_chans (p : Img) (t l tR tC : Nat) (v : ℚ) :
    (borderExtend p t l tR tC v).chans = p.chans := rfl

theorem divImg_rows (p : Img) (v : ℚ) : (divImg p v).rows = p.rows := rfl

theorem divImg_cols (p : Img) (v : ℚ) : (divImg p v).cols = p.cols := rfl

theorem divImg_chans (p : Img) (v : ℚ) : (divImg p v).chans = p.chans := rfl

theorem divImg_px (p : Img) (v : ℚ) (r c ch : Nat) :
    (divImg p v).px r c ch = p.px r c ch / v := rfl

theorem lightness_rows (p : Img) : (lightness p).rows = p.rows := rfl

theorem lightness_cols (p : Img) : (lightness p).cols = p.cols := rfl

theorem lightness_chans (p : Img) : (lightness p).chans = 1 := rfl

theorem equalizeL_rows (P : CvPrims) (p : Img) : (equalizeL P p).rows = p.rows := rfl

theorem equalizeL_cols (P : CvPrims) (p : Img) : (equalizeL P p).cols = p.cols := rfl

theorem equalizeL_chans (P : CvPrims) (p : Img) : (equalizeL P p).chans = p.chans := rfl

theorem gaussImg_rows (P : CvPrims) (d : Nat) : (gaussImg P d).rows = d := rfl

theorem gaussImg_cols (P : CvPrims) (d : Nat) : (gaussImg P d).cols = d := rfl

theorem gaussImg_chans (P : CvPrims) (d : Nat) : (gaussImg P d).chans = 1 := rfl

theorem gaussImg_px (P : CvPrims) (d r c ch : Nat) :
    (gaussImg P d).px r c ch = P.gauss r c := rfl

/-- Normal form of a successful `preprocessing_unet` run: under the
primitive contracts, with both resize target dimensions positive and not
larger than `desired_size`, the run returns a 5-channel image and a mask
whose components are the padded stage images of the source, in the channel
order `[equalized RGB, pre-equalization intensity, gaussian]`. -/
theorem preprocessing_unet_ok_core (P : CvPrims) (im mask : Img)
    (largest desired nr nc : Nat)
    (hrd1 : (resize_dims im.rows im.cols largest).1 = nr)
    (hrd2 : (resize_dims im.rows im.cols largest).2 = nc)
    (hR : ResizeOk P) (hC : ColorOk P)
    (hnr : 0 < nr) (hnc : 0 < nc) (hnrd : nr ≤ desired) (hncd : nc ≤ desired) :
    ∃ out m2,
      preprocessing_unet P im (some mask) largest desired = .ok (out, some m2) ∧
      out.rows = desired ∧ out.cols = desired ∧ out.chans = im.chans + 2 ∧
      m2.rows = desired ∧ m2.cols = desired ∧ m2.chans = mask.chans ∧
      (∀ r c ch, ch < im.chans → out.px r c ch
        = (borderExtend (P.hls2rgb (equalizeL P (P.rgb2hls (P.resize im nr nc))))
            ((desired - nr) / 2) ((desired - nc) / 2) desired desired 255).px r c ch
          / 255) ∧
      (∀ r c, out.px r c im.chans
        = (borderExtend (lightness (P.rgb2hls (P.resize im nr nc)))
            ((desired - nr) / 2) ((desired - nc) / 2) desired desired 255).px r c 0
          / 255) ∧
      (∀ r c ch, im.chans + 1 ≤ ch → out.px r c ch = P.gauss r c) ∧
      (∀ r c ch, m2.px r c ch
        = (borderExtend (P.resize mask nr nc)
            ((desired - nr) / 2) ((desired - nc) / 2) desired desired 0).px r c ch) := by
  obtain ⟨hR1, hR2, hR3⟩ := hR im nr nc
  obtain ⟨hM1, hM2, hM3⟩ := hR mask nr nc
  obtain ⟨⟨hH1, hH2, hH3⟩, -⟩ := hC (P.resize im nr nc)
  obtain ⟨-, hB1, hB2, hB3⟩ := hC (equalizeL P (P.rgb2hls (P.resize im nr nc)))
  have hpr1 : (pad_amounts desired nr).1 = (((desired - nr) / 2 : Nat) : Int) := by
    rw [pad_amounts_eq desired nr hnrd]
  have hpr2 : (pad_amounts desired nr).2
      = ((((desired - nr) - (desired - nr) / 2 : Nat)) : Int) := by
    rw [pad_amounts_eq desired nr hnrd]
  have hpc1 : (pad_amounts desired nc).1 = (((desired - nc) / 2 : Nat) : Int) := by
    rw [pad_amounts_eq desired nc hncd]
  have hpc2 : (pad_amounts desired nc).2
      = ((((desired - nc) - (desired - nc) / 2 : Nat)) : Int) := by
    rw [pad_amounts_eq desired nc hncd]
  have hBrows : (P.hls2rgb (equalizeL P (P.rgb2hls (P.resize im nr nc)))).rows = nr := by
    rw [hB1, equalizeL_rows, hH1, hR1]
  have hBcols : (P.hls2rgb (equalizeL P (P.rgb2hls (P.resize im nr nc)))).cols = nc := by
    rw [hB2, equalizeL_cols, hH2, hR2]
  have hBchans : (P.hls2rgb (equalizeL P (P.rgb2hls (P.resize im nr nc)))).chans
      = im.chans := by
    rw [hB3, equalizeL_chans, hH3, hR3]
  have hLrows : (lightness (P.rgb2hls (P.resize im nr nc))).rows = nr := by
    rw [lightness_rows, hH1, hR1]
  have hLcols : (lightness (P.rgb2hls (P.resize im nr nc))).cols = nc := by
    rw [lightness_cols, hH2, hR2]
  have harith1 : nr + (desired - nr) / 2 + ((desired - nr) - (desired - nr) / 2)
      = desired := by omega
  have harith2 : nc + (desired - nc) / 2 + ((desired - nc) - (desired - nc) / 2)
      = desired := by omega
  have h0 : ¬(nr = 0 ∨ nc = 0) := by omega
  have heq : preprocessing_unet P im (some mask) largest desired
      = preprocessing_unet P im (some mask) largest desired := rfl
  conv at heq =>
    rhs
    simp only [preprocessing_unet, hrd1, hrd2]
    rw [if_neg h0]
    simp only [Option.map, hR1, hR2, hM1, hM2, hpr1, hpr2, hpc1, hpc2,
      copyMakeBorder_natCast, Except.bind, Except.map, hBrows, hBcols, hBchans,
      hLrows, hLcols, lightness_chans, harith1, harith2, concatCh_ok,
      divImg_rows, divImg_cols, divImg_chans,
      borderExtend_rows, borderExtend_cols, borderExtend_chans,
      gaussImg_rows, gaussImg_cols, gaussImg_chans]
  refine ⟨_, _, heq, ?_, ?_, ?_, ?_, ?_, ?_, ?_, ?_, ?_, ?_⟩
  · rfl
  · rfl
  · show im.chans + 1 + 1 = im.chans + 2
    omega
  · rfl
  · rfl
  · rw [borderExtend_chans, hM3]
  · intro r c ch h
    simp only [divImg_px, gaussImg_px]
    rw [if_pos (show ch < im.chans + 1 by omega), if_pos h]
  · intro r c
    simp only [divImg_px, gaussImg_px]
    rw [if_pos (show im.chans < im.chans + 1 by omega),
      if_neg (lt_irrefl im.chans), Nat.sub_self]
  · intro r c ch h
    simp only [divImg_px, gaussImg_px]
    rw [if_neg (show ¬ch < im.chans + 1 by omega)]
  · intro r c ch
    rfl

/-- C3 counterexample: an input with positive height 400 and positive
width 1 (an admissible "any positive height, width, and aspect ratio"
input of the claim) does not yield a `desiredSize × desiredSize × 5`
output at the default configuration: the scaled width truncates to
`int(1 * 250/400) = 0` and `cv.resize` raises, so no array is returned at
all. -/
theorem extreme_aspect_ratio_resize_fails :
    preprocessing_unet idPrims (constImg 400 1 3 0) (some (constImg 400 1 1 0)) 250 320
      = .error "cv.resize: empty size" ∧
    ∀ res, preprocessing_unet idPrims (constImg 400 1 3 0) (some (constImg 400 1 1 0)) 250 320
      ≠ .ok res := by
  have h : preprocessing_unet idPrims (constImg 400 1 3 0) (some (constImg 400 1 1 0)) 250 320
      = .error "cv.resize: empty size" := by
    have hrd : resize_dims (constImg 400 1 3 0).rows (constImg 400 1 3 0).cols 250
        = (250, 0) := by
      show resize_dims 400 1 250 = (250, 0)
      norm_num [resize_dims]
    simp only [preprocessing_unet, hrd]
    rw [if_pos (by norm_num)]
  refine ⟨h, fun res hok => ?_⟩
  rw [h] at hok
  cases hok

/-- C3 (amended): for every 3-channel input image and mask whose
aspect-preserving resize yields two positive target dimensions, and with
`largestDimension ≤ desiredSize`, the returned 5-channel array has spatial
shape exactly `desiredSize × desiredSize` with exactly 5 channels, and the
returned mask is on the same `desiredSize × desiredSize` grid.  Inputs
whose scaled smaller dimension truncates to zero make `cv.resize` raise
instead. -/
theorem preprocessing_unet_output_shape (P : CvPrims) (im mask : Img)
    (largest desired : Nat) (hR : ResizeOk P) (hC : ColorOk P) (hch : im.chans = 3)
    (hr : 0 < im.rows) (hc : 0 < im.cols)
    (hnr : 0 < (resize_dims im.rows im.cols largest).1)
    (hnc : 0 < (resize_dims im.rows im.cols largest).2)
    (hld : largest ≤ desired) :
    ∃ out m2, preprocessing_unet P im (some mask) largest desired = .ok (out, some m2) ∧
      out.rows = desired ∧ out.cols = desired ∧ out.chans = 5 ∧
      m2.rows = desired ∧ m2.cols = desired := by
  have hle := resize_dims_le im.rows im.cols largest hr hc
  obtain ⟨out, m2, heq, h1, h2, h3, h4, h5, -⟩ :=
    preprocessing_unet_ok_core P im mask largest desired
      (resize_dims im.rows im.cols largest).1 (resize_dims im.rows im.cols largest).2
      rfl rfl hR hC hnr hnc (le_trans hle.1 hld) (le_trans hle.2 hld)
  exact ⟨out, m2, heq, h1, h2, by rw [h3, hch], h4, h5⟩

/-- C3 witness: a 2 × 2 image with `largestDimension = 2`,
`desiredSize = 3` is transformed into a 3 × 3 × 5 array with a 3 × 3
mask. -/
theorem preprocessing_unet_output_shape_witness :
    ∃ out m2, preprocessing_unet idPrims (constImg 2 2 3 0) (some (constImg 2 2 1 0)) 2 3
        = .ok (out, some m2) ∧
      out.rows = 3 ∧ out.cols = 3 ∧ out.chans = 5 ∧ m2.rows = 3 ∧ m2.cols = 3 := by
  refine preprocessing_unet_output_shape idPrims (constImg 2 2 3 0) (constImg 2 2 1 0) 2 3
    (fun im r c => ⟨rfl, rfl, rfl⟩) (fun im => ⟨⟨rfl, rfl, rfl⟩, rfl, rfl, rfl⟩) rfl
    (by norm_num [constImg]) (by norm_num [constImg]) ?_ ?_ (by norm_num)
  · show 0 < (resize_dims 2 2 2).1
    norm_num [resize_dims]
  · show 0 < (resize_dims 2 2 2).2
    norm_num [resize_dims]

/-- C4 counterexample: with `largestDimension = 5 > desiredSize = 4` the
configuration is not rejected before processing; the transform runs on a
4 × 4 image (the resize stage completes, producing a 5 × 5 image) and
fails only inside the padding step, where the negative border is
rejected by `cv.copyMakeBorder`. -/
theorem config_largest_gt_desired_not_rejected :
    preprocessing_unet idPrims (constImg 4 4 3 0) none 5 4
      = .error "copyMakeBorder: negative border" := by
  have hrd : resize_dims (constImg 4 4 3 0).rows (constImg 4 4 3 0).cols 5 = (5, 5) := by
    show resize_dims 4 4 5 = (5, 5)
    norm_num [resize_dims]
  simp only [preprocessing_unet, hrd, idPrims]
  rw [if_neg (by norm_num)]
  rw [copyMakeBorder_neg_err _ _ _ _ _ _ (Or.inl (by decide))]
  rfl

/-- Helper for the amended C4: a padding delta with `desired < cur` makes
the first (floor-halved) pad amount negative. -/
theorem pad_amounts_neg (desired cur : Nat) (h : desired < cur) :
    (pad_amounts desired cur).1 < 0 := by
  simp only [pad_amounts]
  have hfd : Int.fdiv ((desired : Int) - (cur : Int)) 2
      = ((desired : Int) - (cur : Int)) / 2 := Int.fdiv_eq_ediv _ (by omega)
  rw [hfd]
  omega

/-- C4 (amended): a configuration with `largestDimension > desiredSize` is
not rejected at configuration time — there is no validation step — instead
every processed image (with positive resize target dimensions) makes the
transform itself fail at the padding step with the OpenCV negative-border
error; no cropped or corrupted array is produced. -/
theorem negative_padding_fails_at_transform (P : CvPrims) (im : Img) (mask : Option Img)
    (largest desired : Nat) (hR : ResizeOk P)
    (hnr : 0 < (resize_dims im.rows im.cols largest).1)
    (hnc : 0 < (resize_dims im.rows im.cols largest).2)
    (hld : desired < largest) :
    preprocessing_unet P im mask largest desired
      = .error "copyMakeBorder: negative border" := by
  obtain ⟨hR1, hR2, hR3⟩ := hR im (resize_dims im.rows im.cols largest).1
    (resize_dims im.rows im.cols largest).2
  simp only [preprocessing_unet]
  rw [if_neg (by omega)]
  rcases resize_dims_has_largest im.rows im.cols largest with hcase | hcase
  · rw [copyMakeBorder_neg_err _ _ _ _ _ _
      (Or.inl (by rw [hR1, hcase]; exact pad_amounts_neg desired largest hld))]
    rfl
  · rw [copyMakeBorder_neg_err _ _ _ _ _ _
      (Or.inr (Or.inr (Or.inl (by rw [hR2, hcase]; exact pad_amounts_neg desired largest hld))))]
    rfl

/-- C4 witness: a 3 × 3 image with `largestDimension = 6 > desiredSize = 4`
reaches the padding step and fails there. -/
theorem negative_padding_fails_at_transform_witness :
    preprocessing_unet idPrims (constImg 3 3 3 0) (some (constImg 3 3 1 0)) 6 4
      = .error "copyMakeBorder: negative border" := by
  refine negative_padding_fails_at_transform idPrims (constImg 3 3 3 0)
    (some (constImg 3 3 1 0)) 6 4 (fun im r c => ⟨rfl, rfl, rfl⟩) ?_ ?_ (by norm_num)
  · show 0 < (resize_dims 3 3 6).1
    norm_num [resize_dims]
  · show 0 < (resize_dims 3 3 6).2
    norm_num [resize_dims]

/-- C5: in a successful run, channel 3 of the output is the lightness
plane of the resized image as extracted BEFORE histogram equalization,
padded with constant 255 and divided by 255; it is unchanged under any
replacement of the equalization primitive; and the channel order is
exactly [R, G, B (the padded equalized reconverted image), intensity,
gaussian]. -/
theorem channel3_is_preequalization_intensity (P : CvPrims) (im mask : Img)
    (largest desired : Nat) (hR : ResizeOk P) (hC : ColorOk P) (hch : im.chans = 3)
    (hr : 0 < im.rows) (hc : 0 < im.cols)
    (hnr : 0 < (resize_dims im.rows im.cols largest).1)
    (hnc : 0 < (resize_dims im.rows im.cols largest).2)
    (hld : largest ≤ desired) :
    ∃ out m2, preprocessing_unet P im (some mask) largest desired = .ok (out, some m2) ∧
      (∀ r c, out.px r c 3
        = (borderExtend
            (lightness (P.rgb2hls (P.resize im
              (resize_dims im.rows im.cols largest).1
              (resize_dims im.rows im.cols largest).2)))
            ((desired - (resize_dims im.rows im.cols largest).1) / 2)
            ((desired - (resize_dims im.rows im.cols largest).2) / 2)
            desired desired 255).px r c 0 / 255) ∧
      (∀ r c ch, ch < 3 → out.px r c ch
        = (borderExtend
            (P.hls2rgb (equalizeL P (P.rgb2hls (P.resize im
              (resize_dims im.rows im.cols largest).1
              (resize_dims im.rows im.cols largest).2))))
            ((desired - (resize_dims im.rows im.cols largest).1) / 2)
            ((desired - (resize_dims im.rows im.cols largest).2) / 2)
            desired desired 255).px r c ch / 255) ∧
      (∀ r c, out.px r c 4 = P.gauss r c) ∧
      (∀ e2 : (Nat → Nat → ℚ) → Nat → Nat → ℚ, ∃ out2 m3,
        preprocessing_unet { P with equalize := e2 } im (some mask) largest desired
          = .ok (out2, some m3) ∧
        ∀ r c, out2.px r c 3 = out.px r c 3) := by
  have hle := resize_dims_le im.rows im.cols largest hr hc
  obtain ⟨out, m2, heq, -, -, -, -, -, -, hrgb, hint, hgauss, -⟩ :=
    preprocessing_unet_ok_core P im mask largest desired
      (resize_dims im.rows im.cols largest).1 (resize_dims im.rows im.cols largest).2
      rfl rfl hR hC hnr hnc (le_trans hle.1 hld) (le_trans hle.2 hld)
  rw [hch] at hrgb hint hgauss
  refine ⟨out, m2, heq, hint, hrgb, fun r c => hgauss r c 4 (by omega), ?_⟩
  intro e2
  obtain ⟨out2, m3, heq2, -, -, -, -, -, -, -, hint2, -, -⟩ :=
    preprocessing_unet_ok_core { P with equalize := e2 } im mask largest desired
      (resize_dims im.rows im.cols largest).1 (resize_dims im.rows im.cols largest).2
      rfl rfl hR hC hnr hnc (le_trans hle.1 hld) (le_trans hle.2 hld)
  rw [hch] at hint2
  refine ⟨out2, m3, heq2, fun r c => ?_⟩
  rw [hint2 r c, hint r c]

/-- C5 witness: at a concrete 2 × 2 input with `largestDimension = 2`,
`desiredSize = 3`, the run succeeds and channel 4 is the gaussian
field. -/
theorem channel3_is_preequalization_intensity_witness :
    ∃ out m2, preprocessing_unet idPrims (constImg 2 2 3 7) (some (constImg 2 2 1 0)) 2 3
        = .ok (out, some m2) ∧
      (∀ r c, out.px r c 4 = idPrims.gauss r c) := by
  obtain ⟨out, m2, heq, -, -, hgauss, -⟩ :=
    channel3_is_preequalization_intensity idPrims (constImg 2 2 3 7) (constImg 2 2 1 0) 2 3
      (fun im r c => ⟨rfl, rfl, rfl⟩) (fun im => ⟨⟨rfl, rfl, rfl⟩, rfl, rfl, rfl⟩) rfl
      (by norm_num [constImg]) (by norm_num [constImg])
      (by show 0 < (resize_dims 2 2 2).1; norm_num [resize_dims])
      (by show 0 < (resize_dims 2 2 2).2; norm_num [resize_dims]) (by norm_num)
  exact ⟨out, m2, heq, hgauss⟩

/-- C6: in the aspect-preserving resize, the larger of (rows, cols) is
mapped to exactly `largestDimension` and the other dimension is the
truncation of `other * largestDimension / larger`; in particular a
400 × 200 input with `largestDimension = 250` resizes to 250 × 125. -/
theorem resize_target_dims (rows cols largest : Nat) (_hr : 0 < rows) (_hc : 0 < cols) :
    (cols ≤ rows → resize_dims rows cols largest = (largest, cols * largest / rows)) ∧
    (rows < cols → resize_dims rows cols largest = (rows * largest / cols, largest)) ∧
    resize_dims 400 200 250 = (250, 125) := by
  refine ⟨?_, ?_, ?_⟩
  · intro hcr
    simp only [resize_dims, if_pos hcr]
    have h2 : ⌊(cols : ℚ) * ((largest : ℚ) / (rows : ℚ))⌋₊ = cols * largest / rows := by
      rw [← mul_div_assoc, ← Nat.cast_mul, Nat.floor_div_nat, Nat.floor_natCast]
    rw [h2]
  · intro hrc
    simp only [resize_dims, if_neg (by omega : ¬cols ≤ rows)]
    have h2 : ⌊(rows : ℚ) * ((largest : ℚ) / (cols : ℚ))⌋₊ = rows * largest / cols := by
      rw [← mul_div_assoc, ← Nat.cast_mul, Nat.floor_div_nat, Nat.floor_natCast]
    rw [h2]
  · norm_num [resize_dims]

/-- C6 witness: the concrete scenario of the spec. -/
theorem resize_target_dims_witness : resize_dims 400 200 250 = (250, 125) :=
  (resize_target_dims 400 200 250 (by norm_num) (by norm_num)).2.2

/-- C7: the padding split is `top = delta_h // 2`, `bottom =
delta_h - top` (and the same for left/right), with the concrete instance
`desiredSize = 320` on a 250 × 125 image giving (35, 35) and (97, 98);
in a successful run the intensity channel and the RGB channels are padded
with constant 255 (value 1 after normalization) and the mask with
constant 0: every pixel of the top border strip has value 1 in channels
0-3 and 0 in the mask. -/
theorem padding_split_and_constants (P : CvPrims) (im mask : Img)
    (largest desired : Nat) (hR : ResizeOk P) (hC : ColorOk P) (hch : im.chans = 3)
    (hr : 0 < im.rows) (hc : 0 < im.cols)
    (hnr : 0 < (resize_dims im.rows im.cols largest).1)
    (hnc : 0 < (resize_dims im.rows im.cols largest).2)
    (hld : largest ≤ desired) :
    (∀ d cur : Nat, cur ≤ d → pad_amounts d cur
        = ((((d - cur) / 2 : Nat) : Int), (((d - cur) - (d - cur) / 2 : Nat) : Int))) ∧
    pad_amounts 320 250 = (35, 35) ∧
    pad_amounts 320 125 = (97, 98) ∧
    ∃ out m2, preprocessing_unet P im (some mask) largest desired = .ok (out, some m2) ∧
      ∀ r c, r < (desired - (resize_dims im.rows im.cols largest).1) / 2 →
        (∀ ch, ch ≤ 3 → out.px r c ch = 1) ∧ m2.px r c 0 = 0 := by
  have hle := resize_dims_le im.rows im.cols largest hr hc
  obtain ⟨out, m2, heq, -, -, -, -, -, -, hrgb, hint, -, hmask⟩ :=
    preprocessing_unet_ok_core P im mask largest desired
      (resize_dims im.rows im.cols largest).1 (resize_dims im.rows im.cols largest).2
      rfl rfl hR hC hnr hnc (le_trans hle.1 hld) (le_trans hle.2 hld)
  rw [hch] at hrgb hint
  refine ⟨fun d cur h => pad_amounts_eq d cur h, by decide, by decide,
    out, m2, heq, fun r c hborder => ⟨fun ch hch3 => ?_, ?_⟩⟩
  · rcases Nat.lt_or_ge ch 3 with h3 | h3
    · rw [hrgb r c ch h3]
      rw [show (borderExtend (P.hls2rgb (equalizeL P (P.rgb2hls (P.resize im
          (resize_dims im.rows im.cols largest).1
          (resize_dims im.rows im.cols largest).2))))
          ((desired - (resize_dims im.rows im.cols largest).1) / 2)
          ((desired - (resize_dims im.rows im.cols largest).2) / 2)
          desired desired 255).px r c ch = 255 from if_pos (Or.inl hborder)]
      norm_num
    · have hch3e : ch = 3 := by omega
      subst hch3e
      rw [hint r c]
      rw [show (borderExtend (lightness (P.rgb2hls (P.resize im
          (resize_dims im.rows im.cols largest).1
          (resize_dims im.rows im.cols largest).2)))
          ((desired - (resize_dims im.rows im.cols largest).1) / 2)
          ((desired - (resize_dims im.rows im.cols largest).2) / 2)
          desired desired 255).px r c 0 = 255 from if_pos (Or.inl hborder)]
      norm_num
  · rw [hmask r c 0]
    exact if_pos (Or.inl hborder)

/-- C7 witness: the concrete padding amounts of the spec scenario. -/
theorem padding_split_and_constants_witness :
    pad_amounts 320 250 = (35, 35) ∧ pad_amounts 320 125 = (97, 98) := by
  have h := padding_split_and_constants idPrims (constImg 2 2 3 0) (constImg 2 2 1 0) 2 3
    (fun im r c => ⟨rfl, rfl, rfl⟩) (fun im => ⟨⟨rfl, rfl, rfl⟩, rfl, rfl, rfl⟩) rfl
    (by norm_num [constImg]) (by norm_num [constImg])
    (by show 0 < (resize_dims 2 2 2).1; norm_num [resize_dims])
    (by show 0 < (resize_dims 2 2 2).2; norm_num [resize_dims]) (by norm_num)
  exact ⟨h.2.1, h.2.2.1⟩

/-- Exponentials of nonpositive arguments are at most one. -/
theorem exp_nonpos_le_one {a : ℝ} (h : a ≤ 0) : Real.exp a ≤ 1 := by
  calc Real.exp a ≤ Real.exp 0 := Real.exp_le_exp.mpr h
    _ = 1 := Real.exp_zero

/-- C9: `make_gaussian` produces a `size × size` array whose cell (x, y)
is `exp(-4 ln 2 ((x - x0)^2 + (y - y0)^2) / fwhm^2)` with default center
`x0 = y0 = size // 2`; the center cell is exactly 1 and every cell lies in
(0, 1]. -/
theorem make_gaussian_props (size : Nat) (fwhm : ℚ) (_hs : 0 < size) (_hf : 0 < fwhm) :
    make_gaussian size fwhm none (size / 2) (size / 2) = 1 ∧
    (∀ x y : Nat, 0 < make_gaussian size fwhm none x y ∧
      make_gaussian size fwhm none x y ≤ 1) ∧
    (make_gaussian_matrix size fwhm).length = size ∧
    (∀ row ∈ make_gaussian_matrix size fwhm, row.length = size) := by
  refine ⟨?_, fun x y => ⟨Real.exp_pos _, ?_⟩, ?_, ?_⟩
  · simp only [make_gaussian]
    rw [show (((size / 2 : Nat) : ℝ) - ((((size / 2 : Nat) : ℚ)) : ℝ)) = 0 by
      push_cast; ring]
    norm_num
  · simp only [make_gaussian]
    apply exp_nonpos_le_one
    have hlog : (0 : ℝ) < Real.log 2 := Real.log_pos (by norm_num)
    have hQ : (0 : ℝ) ≤ ((x : ℝ) - ((((size / 2 : Nat) : ℚ)) : ℝ)) ^ 2
        + ((y : ℝ) - ((((size / 2 : Nat) : ℚ)) : ℝ)) ^ 2 := by positivity
    refine div_nonpos_iff.mpr (Or.inr ⟨?_, sq_nonneg _⟩)
    nlinarith
  · simp [make_gaussian_matrix]
  · intro row hrow
    simp only [make_gaussian_matrix, List.mem_map] at hrow
    obtain ⟨y, -, hy⟩ := hrow
    simp [← hy]

/-- C9 witness: at `size = 5`, `fwhm = 125`, the center cell `(2, 2)`
equals exactly 1. -/
theorem make_gaussian_props_witness : make_gaussian 5 125 none 2 2 = 1 :=
  (make_gaussian_props 5 125 (by norm_num) (by norm_num)).1

end SkinLesion
